import Mathlib

/-!
Verification of the chunking core of the `rolldown` bundler
(`crates/rolldown/src/bundler/bundle/bundle.rs`).

The source file under verification contains `Bundle::mark_modules_entry_bit`,
`Bundle::generate_chunks` and `Bundle::generate`.  The surrounding data types
(`BitSet`, `Chunk`, `Module`, `Graph`) and the external per-chunk operations
(file naming, deconfliction, export wiring, rendering) live outside that file;
they are modelled from the specification, as noted on each definition.
-/

namespace Rolldown

/-- A module identifier: the index of the module in the graph's module table. -/
abbrev ModuleId := Nat

/-- A chunk identifier: the position of the chunk in the final chunk list. -/
abbrev ChunkId := Nat

/-- Modelled from the spec: the kind of an import record, `Static` or
`DynamicImport` (spec §3: "import kind ∈ \x7bStatic, Dynamic\x7d"); the type
itself lives in the external `rolldown_common` crate. -/
inductive ImportKind
  | Static
  | DynamicImport
deriving DecidableEq

/-- Modelled from the spec: one import record of a module — a target module id
and an import kind (spec §3).  The concrete struct lives outside the source
file; the verified code reads exactly the fields `kind` and `resolved_module`. -/
structure ImportRecord where
  kind : ImportKind
  resolved_module : ModuleId
deriving DecidableEq

/-- Modelled from the spec: a normal (non-external) module — identity, an
ordered record list of imports and an execution order (spec §3).  The
symbol-table reference is omitted: the verified code never reads it directly. -/
structure NormalModule where
  id : ModuleId
  exec_order : Nat
  import_records : List ImportRecord
deriving DecidableEq

/-- Modelled from the spec: a module that is not a `Normal` module (the source
matches `Module::Normal(_)` and ignores the other variant's import edges). -/
structure ExternalModule where
  id : ModuleId
  exec_order : Nat
deriving DecidableEq

/-- Modelled from the spec: the module enum.  The verified code distinguishes
only `Normal` (whose import records are traversed) from the remaining variant. -/
inductive Module
  | normal (m : NormalModule)
  | external (m : ExternalModule)
deriving DecidableEq

/-- The module's identity, as read by `module.id()` in the source. -/
def Module.id : Module → ModuleId
  | .normal m => m.id
  | .external m => m.id

/-- The module's execution order, as read by `module.exec_order()` in the source. -/
def Module.exec_order : Module → Nat
  | .normal m => m.exec_order
  | .external m => m.exec_order

/-- Modelled from the spec: the shared symbol table (spec §3).  Its internals
are external to the verified file; it is only threaded through the external
deconfliction and export-wiring operations. -/
abbrev Symbols := List (String × String)

/-- Modelled from the spec: a chunk's public export table (spec §4.3 Phase C);
its contents are computed by the external `initialize_exports` operation. -/
abbrev ExportsTable := List (String × String)

/-- Modelled from the spec: a fixed-width bit vector keyed on exact equality
(spec §3).  `width` is the number of entry points, `data` holds the bits.
The real type lives in `bundler/bitset.rs`, outside the verified file. -/
structure BitSet where
  width : Nat
  data : Nat
deriving DecidableEq

/-- `BitSet::new(width)`: the all-zero bitset. -/
def BitSet.new (w : Nat) : BitSet := ⟨w, 0⟩

/-- `BitSet::set_bit(i)`. -/
def BitSet.set_bit (b : BitSet) (i : Nat) : BitSet := ⟨b.width, b.data ||| (1 <<< i)⟩

/-- `BitSet::has_bit(i)`. -/
def BitSet.has_bit (b : BitSet) (i : Nat) : Bool := b.data.testBit i

/-- Modelled from the spec: a chunk — optional name, optional designated entry
module, reachability signature, ordered member list, resolved output file name
and an exports table populated only for entry chunks (spec §3).  The concrete
struct lives in `bundler/chunk/chunk.rs`, outside the verified file. -/
structure Chunk where
  name : Option String
  entry_module : Option ModuleId
  bits : BitSet
  modules : List ModuleId
  file_name : Option String
  exports : Option ExportsTable
deriving DecidableEq

/-- `Chunk::new(name, entry_module, bits, modules)`: the constructor used by
`generate_chunks`; file name and exports start unset. -/
def Chunk.new (name : Option String) (entry_module : Option ModuleId)
    (bits : BitSet) (modules : List ModuleId) : Chunk :=
  ⟨name, entry_module, bits, modules, none, none⟩

/-- Modelled from the spec: the resolved module graph (spec §3) — all modules
indexed by id, the ordered declared entries (name, entry module id), the
designated runtime module id (`graph.runtime.id` in the source) and the shared
symbol table. -/
structure Graph where
  modules : List Module
  entries : List (Option String × ModuleId)
  runtime : ModuleId
  symbols : Symbols
deriving DecidableEq

/-- Placeholder module returned by out-of-range lookups (Rust indexing would
panic there; all claims are about in-range behaviour). -/
def defaultModule : Module := .external ⟨0, 0⟩

/-- Read a module's bitset from the per-module bitset array
(`modules_entry_bit[module_id]` in the source). -/
def getBitsD (bits : List BitSet) (m : Nat) : BitSet := bits.getD m (BitSet.new 0)

/-- The body of `Bundle::mark_modules_entry_bit`, made total with a fuel
argument bounding the recursion depth (the source recursion is guarded by the
"bit already set" check; `mark_fuel_high` below shows any fuel beyond the
number of modules gives the same result).  If the target module's bit `i` is
already set it returns at once; otherwise it sets the bit and recurses into
every non-dynamic import record of a `Normal` module, in record order. -/
def mark_rec (g : Graph) (i : Nat) : Nat → ModuleId → List BitSet → List BitSet
  | 0, _, bits => bits
  | fuel+1, module_id, bits =>
    if (getBitsD bits module_id).has_bit i then bits
    else
      let bits1 := bits.set module_id ((getBitsD bits module_id).set_bit i)
      match g.modules.getD module_id defaultModule with
      | .normal m =>
        m.import_records.foldl
          (fun b r =>
            if r.kind ≠ ImportKind.DynamicImport then mark_rec g i fuel r.resolved_module b
            else b)
          bits1
      | .external _ => bits1

/-- `Bundle::mark_modules_entry_bit(module_id, index, modules_entry_bit)`:
the recursion with enough fuel to reach its fixpoint. -/
def mark_modules_entry_bit (g : Graph) (module_id : ModuleId) (index : Nat)
    (bits : List BitSet) : List BitSet :=
  mark_rec g index (g.modules.length + 1) module_id bits

/-- The entry-marking loop of `generate_chunks`:
`graph.entries.iter().enumerate().for_each(|(i, (_, entry))| mark_modules_entry_bit(entry, i, bits))`. -/
def markEntries (g : Graph) : Nat → List (Option String × ModuleId) → List BitSet → List BitSet
  | _, [], bits => bits
  | k, e :: es, bits => markEntries g (k+1) es (mark_modules_entry_bit g e.2 k bits)

/-- The per-module reachability signatures computed by `generate_chunks`:
start from one all-zero `BitSet::new(entries.len())` per module, then mark
every entry in declaration order. -/
def computeBits (g : Graph) : List BitSet :=
  markEntries g 0 g.entries (List.replicate g.modules.length (BitSet.new g.entries.length))

/-- The signature of a single module after marking. -/
def bitsOfModule (g : Graph) (mid : ModuleId) : BitSet := getBitsD (computeBits g) mid

/-- The singleton entry bitset built in the seeding loop of `generate_chunks`:
`BitSet::new(entries.len())` with bit `i` set. -/
def entryBits (g : Graph) (i : Nat) : BitSet := (BitSet.new g.entries.length).set_bit i

/-- First-match association lookup, modelling `FxHashMap::get` on the chunk
map (the map is modelled as an insertion-ordered association list; see
`clusteredPairs`). -/
def mapLookup : List (BitSet × Chunk) → BitSet → Option Chunk
  | [], _ => none
  | p :: rest, k => if p.1 = k then some p.2 else mapLookup rest k

/-- Update the value stored under key `k` (modelling mutation through
`FxHashMap::get_mut`). -/
def mapAdjust : List (BitSet × Chunk) → BitSet → (Chunk → Chunk) → List (BitSet × Chunk)
  | [], _, _ => []
  | p :: rest, k, f => if p.1 = k then (p.1, f p.2) :: rest else p :: mapAdjust rest k f

/-- `FxHashMap::insert`: replace the value if the key is present, otherwise
append the new binding. -/
def mapInsert : List (BitSet × Chunk) → BitSet → Chunk → List (BitSet × Chunk)
  | [], k, v => [(k, v)]
  | p :: rest, k, v => if p.1 = k then (k, v) :: rest else p :: mapInsert rest k v

/-- `chunk.modules.push(id)`. -/
def chunkPush (mid : ModuleId) (c : Chunk) : Chunk := { c with modules := c.modules ++ [mid] }

/-- The seeding loop of `generate_chunks`: for each declared entry `(name,
module_id)` at position `i`, insert a chunk keyed by the singleton bitset with
bit `i`, with `entry_module = Some(module_id)` and no members. -/
def seedLoop (g : Graph) : Nat → List (Option String × ModuleId) → List (BitSet × Chunk) → List (BitSet × Chunk)
  | _, [], cm => cm
  | i, e :: es, cm =>
    seedLoop g (i+1) es
      (mapInsert cm (entryBits g i) (Chunk.new e.1 (some e.2) (entryBits g i) []))

/-- The clustering step of `generate_chunks`: look the module's signature up in
the chunk map; push the module into an existing chunk, or insert a fresh chunk
named after the current map size, with no entry module and this module as sole
member. -/
def clusterStep (bitsOf : ModuleId → BitSet) (cm : List (BitSet × Chunk)) (module : Module) :
    List (BitSet × Chunk) :=
  let bits := bitsOf module.id
  match mapLookup cm bits with
  | some _ => mapAdjust cm bits (chunkPush module.id)
  | none => cm ++ [(bits, Chunk.new (some (toString cm.length)) none bits [module.id])]

/-- The module iteration of `generate_chunks`:
`modules.iter().enumerate().skip_while(|(module_id, _)| module_id.eq(&graph.runtime.id))`.
`skip_while` drops elements only while the predicate holds, so it drops the
runtime module exactly when it sits at the head of the module list. -/
def skipRuntimeModules : Nat → ModuleId → List Module → List Module
  | _, _, [] => []
  | k, rt, m :: ms => if k == rt then skipRuntimeModules (k+1) rt ms else m :: ms

/-- The chunk map after seeding and clustering, modelled as an
insertion-ordered association list.  (The source stores it in an `FxHashMap`;
every claim proved below is invariant under the map's iteration order.) -/
def clusteredPairs (g : Graph) : List (BitSet × Chunk) :=
  (skipRuntimeModules 0 g.runtime g.modules).foldl
    (clusterStep (bitsOfModule g))
    (seedLoop g 0 g.entries [])

/-- Stable insertion by execution-order key, placing the new element after all
elements with a key less than or equal to its own. -/
def execOrderOf (g : Graph) (mid : ModuleId) : Nat :=
  (g.modules.getD mid defaultModule).exec_order

/-- One insertion of the stable sort. -/
def insertSorted (g : Graph) (x : ModuleId) : List ModuleId → List ModuleId
  | [] => [x]
  | y :: ys => if execOrderOf g x < execOrderOf g y then x :: y :: ys else y :: insertSorted g x ys

/-- `chunk.modules.sort_by_key(|id| graph.modules[*id].exec_order())`, modelled
as a stable insertion sort by the same key. -/
def sortModules (g : Graph) (l : List ModuleId) : List ModuleId :=
  l.foldl (fun acc x => insertSorted g x acc) []

/-- The `module_to_chunk` index built at the end of `generate_chunks`: scan the
final chunk list and record each member's chunk id. -/
def buildIndex : Nat → List Chunk → List (Option ChunkId) → List (Option ChunkId)
  | _, [], acc => acc
  | i, c :: cs, acc => buildIndex (i+1) cs (c.modules.foldl (fun a mid => a.set mid (some i)) acc)

/-- `Bundle::generate_chunks`: seed one chunk per declared entry, mark entry
reachability, cluster the (possibly runtime-skipped) modules by signature,
sort every chunk's members by execution order, and build the module→chunk
index. -/
def generate_chunks (g : Graph) : List Chunk × List (Option ChunkId) :=
  let chunks := (clusteredPairs g).map
    (fun p => { p.2 with modules := sortModules g p.2.modules })
  let module_to_chunk := buildIndex 0 chunks (List.replicate g.modules.length (none : Option ChunkId))
  (chunks, module_to_chunk)

/-! ## The `generate` pipeline -/

/-- Result type of `Bundle::generate`.  In the source `generate` returns
`anyhow::Result<Vec<Asset>>` but only ever returns `Ok`; a failing chunk
render is consumed by `.unwrap()`, which aborts the process.  `panicked`
models that abort. -/
inductive GenResult (α : Type)
  | ok (a : α)
  | panicked
deriving DecidableEq

/-- The output record: final file name and rendered content. -/
structure Asset where
  file_name : String
  content : String
deriving DecidableEq

/-- Modelled from the spec: the external per-chunk operations invoked by
`generate` (spec §4.3, §6) — file-name resolution (Phase A), deconfliction
against the shared symbol table (Phase B), export wiring for entry chunks
(Phase C, which may also mutate the module table), and rendering (Phase D,
which may fail with a render error). -/
structure ExternalOps where
  renderFileName : Chunk → String
  deConflict : Chunk → Symbols → Symbols
  initializeExports : List Module → Symbols → Chunk → (List Module × ExportsTable)
  render : Graph → List (Option ChunkId) → List Chunk → Chunk → Except String String

/-- Phase A of `generate`:
`chunks.iter_mut().par_bridge().for_each(|chunk| chunk.render_file_name(output_options))`.
Each chunk's file name depends only on that chunk, so the parallel loop is
modelled as a map. -/
def chunksAfterNaming (ops : ExternalOps) (g : Graph) : List Chunk :=
  (generate_chunks g).1.map (fun c => { c with file_name := some (ops.renderFileName c) })

/-- Phase B of `generate`:
`chunks.iter_mut().par_bridge().for_each(|chunk| chunk.de_conflict(graph))`;
the symbol-table mutations are modelled as a fold in chunk order. -/
def symbolsAfterDeconflict (ops : ExternalOps) (g : Graph) : Symbols :=
  (chunksAfterNaming ops g).foldl (fun s c => ops.deConflict c s) g.symbols

/-- Phase C of `generate`: walk the chunks in order and, exactly when
`chunk.entry_module.is_some()`, call `initialize_exports(&mut graph.modules,
&graph.symbols)`, recording the chunk's export table and threading the mutated
module table. -/
def wireLoop (ops : ExternalOps) (syms : Symbols) :
    List Module → List Chunk → List Module × List Chunk
  | mods, [] => (mods, [])
  | mods, c :: cs =>
    if c.entry_module.isSome then
      let r := ops.initializeExports mods syms c
      let rest := wireLoop ops syms r.1 cs
      (rest.1, { c with exports := some r.2 } :: rest.2)
    else
      let rest := wireLoop ops syms mods cs
      (rest.1, c :: rest.2)

/-- The chunk list after Phase C of `generate`. -/
def chunksAfterExportWiring (ops : ExternalOps) (g : Graph) : List Chunk :=
  (wireLoop ops (symbolsAfterDeconflict ops g) g.modules (chunksAfterNaming ops g)).2

/-- Phase D of `generate`: for each chunk in order, render it against the
final graph, module→chunk index and chunk list, and take
`render(..).unwrap()` and `file_name.clone().unwrap()` — a render error (or a
missing file name) aborts the process. -/
def renderAssets (ops : ExternalOps) (g1 : Graph) (mtc : List (Option ChunkId))
    (allChunks : List Chunk) : List Chunk → GenResult (List Asset)
  | [] => .ok []
  | c :: cs =>
    match ops.render g1 mtc allChunks c with
    | .error _ => .panicked
    | .ok content =>
      match c.file_name with
      | none => .panicked
      | some fname =>
        match renderAssets ops g1 mtc allChunks cs with
        | .panicked => .panicked
        | .ok assets => .ok ({ file_name := fname, content := content } :: assets)

/-- `Bundle::generate`: partition into chunks, resolve file names, deconflict,
wire exports for entry chunks, then render every chunk.  The only failure mode
is the `.unwrap()` on a chunk's render result. -/
def generate (ops : ExternalOps) (g : Graph) : GenResult (List Asset) :=
  let wired := wireLoop ops (symbolsAfterDeconflict ops g) g.modules (chunksAfterNaming ops g)
  renderAssets ops { g with modules := wired.1, symbols := symbolsAfterDeconflict ops g }
    (generate_chunks g).2 wired.2 wired.2

/-- A static-import edge: `b` is the resolved target of a non-dynamic import
record of the `Normal` module `a`. -/
def staticTargets (g : Graph) (a : ModuleId) : List ModuleId :=
  match g.modules.getD a defaultModule with
  | .normal n =>
    (n.import_records.filter (fun r => r.kind ≠ ImportKind.DynamicImport)).map
      (fun r => r.resolved_module)
  | .external _ => []

/-- Reachability along static-import edges only (spec §4.1: depth-first
traversal over static import edges; dynamic edges are never followed). -/
def StaticReach (g : Graph) (a b : ModuleId) : Prop :=
  Relation.ReflTransGen (fun x y => y ∈ staticTargets g x) a b

/-! ## Basic lemmas about bitsets and the bitset array -/

theorem BitSet.has_bit_set_bit (b : BitSet) (i j : Nat) :
    (b.set_bit i).has_bit j = (b.has_bit j || decide (i = j)) := by
  simp only [BitSet.set_bit, BitSet.has_bit, Nat.testBit_lor, Nat.shiftLeft_eq, one_mul,
    Nat.testBit_two_pow]

theorem BitSet.has_bit_set_bit_self (b : BitSet) (i : Nat) :
    (b.set_bit i).has_bit i = true := by
  simp [BitSet.has_bit_set_bit]

theorem BitSet.has_bit_set_bit_of_ne (b : BitSet) {i j : Nat} (h : i ≠ j) :
    (b.set_bit i).has_bit j = b.has_bit j := by
  simp [BitSet.has_bit_set_bit, h]

theorem BitSet.has_bit_new (w i : Nat) : (BitSet.new w).has_bit i = false := by
  simp [BitSet.new, BitSet.has_bit]

theorem getBitsD_set (bits : List BitSet) (m : Nat) (v : BitSet) (m' : Nat) :
    getBitsD (bits.set m v) m' =
      if m' = m ∧ m < bits.length then v else getBitsD bits m' := by
  induction bits generalizing m m' with
  | nil => simp [getBitsD]
  | cons b bs ih =>
    cases m with
    | zero =>
      cases m' with
      | zero => simp [getBitsD]
      | succ m' => simp [getBitsD, List.set]
    | succ m =>
      cases m' with
      | zero => simp [getBitsD, List.set]
      | succ m' =>
        simp only [List.set, List.length_cons]
        have := ih m m'
        simp only [getBitsD, List.getD_cons_succ] at this ⊢
        rw [this]
        by_cases h1 : m' = m <;> simp [h1, Nat.succ_lt_succ_iff]

theorem getBitsD_replicate (n : Nat) (w : Nat) (m : Nat) :
    (getBitsD (List.replicate n (BitSet.new w)) m).has_bit i = false := by
  unfold getBitsD
  rcases lt_or_le m n with h | h
  · rw [List.getD_eq_getElem?_getD, List.getElem?_replicate]
    simp [h, BitSet.has_bit_new]
  · rw [List.getD_eq_default _ _ (by simpa using h)]
    simp [BitSet.has_bit_new]

/-- Generic preservation of a predicate along a left fold. -/
theorem foldl_preserve {α β : Type} (P : β → Prop) (f : β → α → β)
    (h : ∀ b a, P b → P (f b a)) :
    ∀ (l : List α) (b : β), P b → P (l.foldl f b) := by
  intro l
  induction l with
  | nil => intro b hb; simpa using hb
  | cons a l ih => intro b hb; exact ih _ (h b a hb)

/-! ## Frame and monotonicity of reachability marking -/

/-- Marking never clears a bit: any bit set before `mark_rec` is set after. -/
theorem mark_rec_mono (g : Graph) (i : Nat) :
    ∀ (f : Nat) (m : ModuleId) (bits : List BitSet) (m' j : Nat),
      (getBitsD bits m').has_bit j = true →
      (getBitsD (mark_rec g i f m bits) m').has_bit j = true := by
  intro f
  induction f with
  | zero => intro m bits m' j h; simpa [mark_rec] using h
  | succ f ih =>
    intro m bits m' j h
    rw [mark_rec]
    split
    · exact h
    · have hset : ∀ m' j, (getBitsD bits m').has_bit j = true →
          (getBitsD (bits.set m ((getBitsD bits m).set_bit i)) m').has_bit j = true := by
        intro a b hab
        rw [getBitsD_set]
        split
        · rename_i hcond
          rw [hcond.1] at hab
          simp [BitSet.has_bit_set_bit, hab]
        · exact hab
      split
      · rename_i n _
        exact foldl_preserve
          (fun bs => (getBitsD bs m').has_bit j = true)
          _
          (by
            intro bs r hb
            by_cases hk : r.kind ≠ ImportKind.DynamicImport
            · simpa [hk] using ih r.resolved_module bs m' j hb
            · simpa [hk] using hb)
          n.import_records _ (hset m' j h)
      · exact hset m' j h

/-- Marking entry index `i` never changes any bit at an index other than `i`. -/
theorem mark_rec_frame (g : Graph) (i : Nat) :
    ∀ (f : Nat) (m : ModuleId) (bits : List BitSet) (m' j : Nat), j ≠ i →
      (getBitsD (mark_rec g i f m bits) m').has_bit j = (getBitsD bits m').has_bit j := by
  intro f
  induction f with
  | zero => intro m bits m' j _; simp [mark_rec]
  | succ f ih =>
    intro m bits m' j hj
    rw [mark_rec]
    split
    · rfl
    · have hset : ∀ a, (getBitsD (bits.set m ((getBitsD bits m).set_bit i)) a).has_bit j =
          (getBitsD bits a).has_bit j := by
        intro a
        rw [getBitsD_set]
        split
        · rename_i hcond
          rw [hcond.1, BitSet.has_bit_set_bit_of_ne _ (Ne.symm hj)]
        · rfl
      split
      · rename_i n _
        refine Eq.trans ?_ (hset m')
        exact foldl_preserve
          (fun bs => (getBitsD bs m').has_bit j =
            (getBitsD (bits.set m ((getBitsD bits m).set_bit i)) m').has_bit j)
          _
          (by
            intro bs r hb
            by_cases hk : r.kind ≠ ImportKind.DynamicImport
            · simpa [hk] using (ih r.resolved_module bs m' j hj).trans hb
            · simpa [hk] using hb)
          n.import_records _ rfl
      · exact hset m'

/-! ## Fuel stability of the marking recursion -/

/-- Number of modules whose bit `i` is still unset: the measure that shrinks
at every level of the marking recursion. -/
def unsetCount (g : Graph) (i : Nat) (bits : List BitSet) : Nat :=
  (List.range g.modules.length).countP (fun m => !(getBitsD bits m).has_bit i)

theorem countP_le_of_imp {l : List Nat} {p q : Nat → Bool}
    (h : ∀ y ∈ l, q y = true → p y = true) : l.countP q ≤ l.countP p := by
  induction l with
  | nil => simp
  | cons a l ih =>
    rw [List.countP_cons, List.countP_cons]
    have hl : l.countP q ≤ l.countP p := ih (fun y hy => h y (List.mem_cons_of_mem _ hy))
    have hqp : (if q a = true then 1 else 0 : Nat) ≤ if p a = true then 1 else 0 := by
      cases ha : q a with
      | false => simp
      | true => rw [h a (List.mem_cons_self _ _) ha]
    omega

theorem countP_lt_of_flip {l : List Nat} {p q : Nat → Bool} (x : Nat)
    (hx : x ∈ l) (hpx : p x = true) (hqx : q x = false)
    (himp : ∀ y ∈ l, q y = true → p y = true) : l.countP q < l.countP p := by
  induction l with
  | nil => cases hx
  | cons a l ih =>
    rw [List.countP_cons, List.countP_cons]
    have hle : l.countP q ≤ l.countP p :=
      countP_le_of_imp (fun y hy => himp y (List.mem_cons_of_mem _ hy))
    rcases List.mem_cons.mp hx with rfl | hx'
    · have h1 : (if p x = true then 1 else 0 : Nat) = 1 := by rw [hpx]; simp
      have h2 : (if q x = true then 1 else 0 : Nat) = 0 := by rw [hqx]; simp
      omega
    · have hlt : l.countP q < l.countP p :=
        ih hx' (fun y hy => himp y (List.mem_cons_of_mem _ hy))
      have hqp : (if q a = true then 1 else 0 : Nat) ≤ if p a = true then 1 else 0 := by
        cases ha : q a with
        | false => simp
        | true => rw [himp a (List.mem_cons_self _ _) ha]
      omega

/-- Marking cannot increase the number of unset bits. -/
theorem unsetCount_mark_rec_le (g : Graph) (i f : Nat) (m : ModuleId) (bits : List BitSet) :
    unsetCount g i (mark_rec g i f m bits) ≤ unsetCount g i bits := by
  apply countP_le_of_imp
  intro y _ hy
  simp only [Bool.not_eq_true'] at hy ⊢
  by_contra hb
  have hb' : (getBitsD bits y).has_bit i = true := by
    cases h : (getBitsD bits y).has_bit i
    · exact absurd h (by simp_all)
    · rfl
  rw [mark_rec_mono g i f m bits y i hb'] at hy
  cases hy

theorem getD_normal_lt {g : Graph} {m : ModuleId} {n : NormalModule}
    (h : g.modules.getD m defaultModule = .normal n) : m < g.modules.length := by
  by_contra hge
  rw [List.getD_eq_default _ _ (Nat.le_of_not_lt hge)] at h
  cases h

/-- Setting an unset bit of an in-range module strictly decreases the measure. -/
theorem unsetCount_set_lt {g : Graph} {i : Nat} {bits : List BitSet} {m : ModuleId}
    (hm : m < g.modules.length) (hmlen : m < bits.length)
    (hunset : (getBitsD bits m).has_bit i = false) :
    unsetCount g i (bits.set m ((getBitsD bits m).set_bit i)) < unsetCount g i bits := by
  apply countP_lt_of_flip m
  · exact List.mem_range.mpr hm
  · simp [hunset]
  · rw [getBitsD_set]
    simp [hmlen, BitSet.has_bit_set_bit_self]
  · intro y _ hy
    rw [getBitsD_set] at hy
    split at hy
    · rename_i hc
      simp [BitSet.has_bit_set_bit] at hy
    · exact hy

/-- If the bitset array is shorter than the module table, an in-range module
with an out-of-range bitset reads the all-zero default, and `List.set` is a
no-op; this case needs separate care in the measure argument, so the stability
theorem assumes the bitset array covers the module table. -/
abbrev coversModules (g : Graph) (bits : List BitSet) : Prop :=
  g.modules.length ≤ bits.length

theorem coversModules_set (g : Graph) {bits : List BitSet} (h : coversModules g bits)
    (m : Nat) (v : BitSet) : coversModules g (bits.set m v) := by
  simpa [coversModules] using h

theorem coversModules_mark_rec (g : Graph) (i : Nat) :
    ∀ (f : Nat) {bits : List BitSet} (m : ModuleId), coversModules g bits →
      coversModules g (mark_rec g i f m bits) := by
  intro f
  induction f with
  | zero => intro bits m h; simpa [mark_rec] using h
  | succ f ih =>
    intro bits m h
    rw [mark_rec]
    split
    · exact h
    · split
      · rename_i n _
        exact foldl_preserve (coversModules g)
          _
          (by
            intro bs r hb
            by_cases hk : r.kind ≠ ImportKind.DynamicImport
            · simpa [hk] using ih r.resolved_module hb
            · simpa [hk] using hb)
          n.import_records _ (coversModules_set g h m _)
      · exact coversModules_set g h m _

/-- Fuel stability: once the fuel exceeds the number of modules whose bit is
still unset, one more unit of fuel cannot change the result. -/
theorem mark_rec_stable (g : Graph) (i : Nat) :
    ∀ (f : Nat) (m : ModuleId) (bits : List BitSet), coversModules g bits →
      unsetCount g i bits < f →
      mark_rec g i f m bits = mark_rec g i (f+1) m bits := by
  intro f
  induction f with
  | zero => intro m bits _ h; cases Nat.not_lt_zero _ h
  | succ f ih =>
    intro m bits hcov h
    rw [mark_rec, mark_rec]
    split
    · rfl
    · rename_i hbit
      split
      · rename_i n hn
        have hm : m < g.modules.length := getD_normal_lt hn
        have hmb : m < bits.length := Nat.lt_of_lt_of_le hm hcov
        have hlt : unsetCount g i (bits.set m ((getBitsD bits m).set_bit i)) <
            unsetCount g i bits :=
          unsetCount_set_lt hm hmb (by simpa using hbit)
        have hb1 : unsetCount g i (bits.set m ((getBitsD bits m).set_bit i)) < f := by
          omega
        have hcov1 : coversModules g (bits.set m ((getBitsD bits m).set_bit i)) :=
          coversModules_set g hcov m _
        -- the two folds agree element by element
        clear hn hbit hlt h
        generalize (bits.set m ((getBitsD bits m).set_bit i)) = b0 at hb1 hcov1
        induction n.import_records generalizing b0 with
        | nil => rfl
        | cons r rs ihr =>
          simp only [List.foldl]
          by_cases hk : r.kind = ImportKind.DynamicImport
          · simp only [hk, ne_eq, not_true_eq_false, ite_false]
            exact ihr _ hb1 hcov1
          · simp only [ne_eq, hk, not_false_eq_true, ite_true]
            rw [← ih r.resolved_module b0 hcov1 hb1]
            exact ihr _ (Nat.lt_of_le_of_lt
                (unsetCount_mark_rec_le g i f r.resolved_module b0) hb1)
              (coversModules_mark_rec g i f r.resolved_module hcov1)
      · rfl

theorem unsetCount_le_length (g : Graph) (i : Nat) (bits : List BitSet) :
    unsetCount g i bits ≤ g.modules.length := by
  calc unsetCount g i bits ≤ (List.range g.modules.length).length :=
        List.countP_le_length _
    _ = g.modules.length := List.length_range _

/-- Any fuel beyond the unset-bit count gives the marking fixpoint. -/
theorem mark_rec_eq_of_lt (g : Graph) (i : Nat) (m : ModuleId) (bits : List BitSet)
    (hcov : coversModules g bits) :
    ∀ (d f : Nat), unsetCount g i bits < f →
      mark_rec g i (f + d) m bits = mark_rec g i f m bits := by
  intro d
  induction d with
  | zero => intro f _; rfl
  | succ d ihd =>
    intro f hf
    have : f + (d + 1) = (f + d) + 1 := by omega
    rw [this, ← mark_rec_stable g i (f + d) m bits hcov (by omega)]
    exact ihd f hf

/-- Fuel irrelevance above the module count. -/
theorem mark_rec_high (g : Graph) (i : Nat) (m : ModuleId) (bits : List BitSet)
    (hcov : coversModules g bits) {f : Nat} (hf : g.modules.length < f) :
    mark_rec g i f m bits = mark_modules_entry_bit g m i bits := by
  have hu : unsetCount g i bits < g.modules.length + 1 :=
    Nat.lt_succ_of_le (unsetCount_le_length g i bits)
  have h1 : mark_rec g i ((g.modules.length + 1) + (f - (g.modules.length + 1))) m bits =
      mark_rec g i (g.modules.length + 1) m bits :=
    mark_rec_eq_of_lt g i m bits hcov _ _ hu
  have : (g.modules.length + 1) + (f - (g.modules.length + 1)) = f := by omega
  rw [this] at h1
  exact h1

/-! ## Soundness of reachability marking -/

/-- Any module whose bit `i` is set after `mark_rec` from a module statically
reachable from `root` is itself statically reachable from `root` (provided
every module already carrying bit `i` was). -/
theorem mark_rec_sound (g : Graph) (i : Nat) (root : ModuleId) :
    ∀ (f : Nat) (m : ModuleId) (bits : List BitSet),
      StaticReach g root m →
      (∀ m', (getBitsD bits m').has_bit i = true → StaticReach g root m') →
      ∀ m', (getBitsD (mark_rec g i f m bits) m').has_bit i = true → StaticReach g root m' := by
  intro f
  induction f with
  | zero => intro m bits _ hinv m' h; exact hinv m' (by simpa [mark_rec] using h)
  | succ f ih =>
    intro m bits hm hinv m' h
    rw [mark_rec] at h
    split at h
    · exact hinv m' h
    · have hinv1 : ∀ m',
          (getBitsD (bits.set m ((getBitsD bits m).set_bit i)) m').has_bit i = true →
          StaticReach g root m' := by
        intro a ha
        rw [getBitsD_set] at ha
        split at ha
        · rename_i hc
          rw [hc.1]
          exact hm
        · exact hinv a ha
      split at h
      · rename_i n hn
        -- every static import record of `m` is reachable from `root`
        have hsub : ∀ r ∈ n.import_records, r.kind ≠ ImportKind.DynamicImport →
            StaticReach g root r.resolved_module := by
          intro r hr hk
          refine Relation.ReflTransGen.tail hm ?_
          unfold staticTargets
          rw [hn]
          exact List.mem_map.mpr ⟨r, List.mem_filter.mpr ⟨hr, by simpa using hk⟩, rfl⟩
        have main : ∀ (rs : List ImportRecord),
            (∀ r ∈ rs, r.kind ≠ ImportKind.DynamicImport →
              StaticReach g root r.resolved_module) →
            ∀ (b0 : List BitSet),
              (∀ a, (getBitsD b0 a).has_bit i = true → StaticReach g root a) →
              (getBitsD (rs.foldl
                (fun b r => if r.kind ≠ ImportKind.DynamicImport then
                  mark_rec g i f r.resolved_module b else b) b0) m').has_bit i = true →
              StaticReach g root m' := by
          intro rs
          induction rs with
          | nil => intro _ b0 hb0 hh; exact hb0 m' hh
          | cons r rs ihr =>
            intro hsub' b0 hb0 hh
            simp only [List.foldl] at hh
            by_cases hk : r.kind = ImportKind.DynamicImport
            · simp only [hk, ne_eq, not_true_eq_false, ite_false] at hh
              exact ihr (fun r' hr' => hsub' r' (List.mem_cons_of_mem _ hr')) _ hb0 hh
            · simp only [ne_eq, hk, not_false_eq_true, ite_true] at hh
              exact ihr (fun r' hr' => hsub' r' (List.mem_cons_of_mem _ hr')) _
                (fun a ha => ih r.resolved_module b0
                  (hsub' r (List.mem_cons_self _ _) hk) hb0 a ha) hh
        exact main n.import_records hsub _ hinv1 h
      · exact hinv1 m' h

/-- Soundness carried over the whole entry loop: every bit `i` in the final
signature array certifies a static-import path from the entry declared at
position `i`. -/
theorem markEntries_sound (g : Graph) :
    ∀ (es : List (Option String × ModuleId)) (k : Nat) (b : List BitSet),
      (∀ idx e, es.get? idx = some e → g.entries.get? (k + idx) = some e) →
      (∀ i m', (getBitsD b m').has_bit i = true →
        ∃ name mid, g.entries.get? i = some (name, mid) ∧ StaticReach g mid m') →
      ∀ i m', (getBitsD (markEntries g k es b) m').has_bit i = true →
        ∃ name mid, g.entries.get? i = some (name, mid) ∧ StaticReach g mid m' := by
  intro es
  induction es with
  | nil => intro k b _ hinv i m' h; exact hinv i m' (by simpa [markEntries] using h)
  | cons e es ihe =>
    intro k b hidx hinv i m' h
    rw [markEntries] at h
    refine ihe (k+1) _ (fun idx e' he' => by
        have := hidx (idx + 1) e' (by simpa using he')
        simpa [Nat.add_assoc, Nat.add_comm 1 idx] using this) ?_ i m' h
    intro j m'' hj
    by_cases hji : j = k
    · subst hji
      have he : g.entries.get? j = some e := by simpa using hidx 0 e rfl
      refine ⟨e.1, e.2, he, ?_⟩
      refine mark_rec_sound g j e.2 _ e.2 b Relation.ReflTransGen.refl ?_ m'' hj
      intro a ha
      obtain ⟨name, mid, hname, hreach⟩ := hinv j a ha
      rw [he] at hname
      cases hname
      exact hreach
    · rw [mark_modules_entry_bit] at hj
      rw [mark_rec_frame g k _ e.2 b m'' j hji] at hj
      exact hinv j m'' hj

/-- Modules never gain bits that the starting array did not justify: the final
signatures of `generate_chunks`. -/
theorem computeBits_sound (g : Graph) (m : ModuleId) (i : Nat)
    (h : (bitsOfModule g m).has_bit i = true) :
    ∃ name mid, g.entries.get? i = some (name, mid) ∧ StaticReach g mid m := by
  refine markEntries_sound g g.entries 0 _ (fun idx e he => by simpa using he) ?_ i m h
  intro j m' hj
  rw [getBitsD_replicate] at hj
  cases hj

/-! ## Association-map lemmas -/

theorem mapLookup_eq_none_iff (cm : List (BitSet × Chunk)) (k : BitSet) :
    mapLookup cm k = none ↔ ∀ p ∈ cm, p.1 ≠ k := by
  induction cm with
  | nil => simp [mapLookup]
  | cons p rest ih =>
    rw [mapLookup]
    by_cases h : p.1 = k
    · simp [h]
    · simp [h, ih]

theorem mapLookup_some_mem {cm : List (BitSet × Chunk)} {k : BitSet} {c : Chunk}
    (h : mapLookup cm k = some c) : (k, c) ∈ cm := by
  induction cm with
  | nil => cases h
  | cons p rest ih =>
    rw [mapLookup] at h
    split at h
    · rename_i hp
      cases h
      rw [← hp]
      exact List.mem_cons_self _ _
    · exact List.mem_cons_of_mem _ (ih h)

theorem mapLookup_of_nodup_mem {cm : List (BitSet × Chunk)} {k : BitSet} {c : Chunk}
    (hnd : (cm.map Prod.fst).Nodup) (h : (k, c) ∈ cm) : mapLookup cm k = some c := by
  induction cm with
  | nil => cases h
  | cons p rest ih =>
    rw [List.map_cons, List.nodup_cons] at hnd
    rw [mapLookup]
    rcases List.mem_cons.mp h with rfl | h'
    · simp
    · have hne : p.1 ≠ k := by
        intro hk
        exact hnd.1 (hk ▸ List.mem_map.mpr ⟨(k, c), h', rfl⟩)
      rw [if_neg hne]
      exact ih hnd.2 h'

theorem mapAdjust_map_fst (cm : List (BitSet × Chunk)) (k : BitSet) (f : Chunk → Chunk) :
    (mapAdjust cm k f).map Prod.fst = cm.map Prod.fst := by
  induction cm with
  | nil => rfl
  | cons p rest ih =>
    rw [mapAdjust]
    split
    · simp
    · simpa using ih

theorem mapAdjust_mem {cm : List (BitSet × Chunk)} {k : BitSet} {f : Chunk → Chunk}
    {p' : BitSet × Chunk} (h : p' ∈ mapAdjust cm k f) :
    p' ∈ cm ∨ ∃ c, (k, c) ∈ cm ∧ p' = (k, f c) := by
  induction cm with
  | nil => cases h
  | cons p rest ih =>
    rw [mapAdjust] at h
    split at h
    · rename_i hp
      rcases List.mem_cons.mp h with rfl | h'
      · right
        exact ⟨p.2, by rw [← hp]; exact List.mem_cons_self _ _, by rw [← hp]⟩
      · exact Or.inl (List.mem_cons_of_mem _ h')
    · rcases List.mem_cons.mp h with rfl | h'
      · exact Or.inl (List.mem_cons_self _ _)
      · rcases ih h' with h'' | ⟨c, hc, hp'⟩
        · exact Or.inl (List.mem_cons_of_mem _ h'')
        · exact Or.inr ⟨c, List.mem_cons_of_mem _ hc, hp'⟩

theorem mapAdjust_mem_of_lookup {cm : List (BitSet × Chunk)} {k : BitSet} {c : Chunk}
    (f : Chunk → Chunk) (h : mapLookup cm k = some c) : (k, f c) ∈ mapAdjust cm k f := by
  induction cm with
  | nil => cases h
  | cons p rest ih =>
    rw [mapLookup] at h
    rw [mapAdjust]
    split
    · rename_i hp
      rw [if_pos hp] at h
      cases h
      rw [← hp]
      exact List.mem_cons_self _ _
    · rename_i hp
      rw [if_neg hp] at h
      exact List.mem_cons_of_mem _ (ih h)

theorem mapAdjust_grow {cm : List (BitSet × Chunk)} {p : BitSet × Chunk}
    (k : BitSet) (f : Chunk → Chunk) (hgrow : ∀ c, c.modules ⊆ (f c).modules)
    (h : p ∈ cm) : ∃ p' ∈ mapAdjust cm k f, p.1 = p'.1 ∧ p.2.modules ⊆ p'.2.modules := by
  induction cm with
  | nil => cases h
  | cons q rest ih =>
    rw [mapAdjust]
    by_cases hq : q.1 = k
    · rw [if_pos hq]
      rcases List.mem_cons.mp h with rfl | h'
      · exact ⟨(p.1, f p.2), List.mem_cons_self _ _, rfl, hgrow p.2⟩
      · exact ⟨p, List.mem_cons_of_mem _ h', rfl, fun x hx => hx⟩
    · rw [if_neg hq]
      rcases List.mem_cons.mp h with rfl | h'
      · exact ⟨p, List.mem_cons_self _ _, rfl, fun x hx => hx⟩
      · obtain ⟨p', hp', h1, h2⟩ := ih h'
        exact ⟨p', List.mem_cons_of_mem _ hp', h1, h2⟩

theorem mapInsert_of_not_mem {cm : List (BitSet × Chunk)} {k : BitSet}
    (v : Chunk) (h : ∀ p ∈ cm, p.1 ≠ k) : mapInsert cm k v = cm ++ [(k, v)] := by
  induction cm with
  | nil => rfl
  | cons p rest ih =>
    rw [mapInsert, if_neg (h p (List.mem_cons_self _ _)), ih]
    · rfl
    · exact fun q hq => h q (List.mem_cons_of_mem _ hq)

/-! ## The seeded chunk map -/

theorem entryBits_inj (g : Graph) {i j : Nat} (h : entryBits g i = entryBits g j) : i = j := by
  have : (entryBits g i).data = (entryBits g j).data := by rw [h]
  simp only [entryBits, BitSet.set_bit, BitSet.new, Nat.zero_or, Nat.shiftLeft_eq,
    one_mul] at this
  exact Nat.pow_right_injective (by omega) this

/-- The explicit shape of the seeded map: one binding per declared entry, in
declaration order. -/
def seedList (g : Graph) : Nat → List (Option String × ModuleId) → List (BitSet × Chunk)
  | _, [] => []
  | i, e :: es =>
    (entryBits g i, Chunk.new e.1 (some e.2) (entryBits g i) []) :: seedList g (i+1) es

theorem seedList_mem {g : Graph} :
    ∀ {es : List (Option String × ModuleId)} {i : Nat} {p : BitSet × Chunk},
      p ∈ seedList g i es →
      ∃ j name mid, es.get? j = some (name, mid) ∧
        p = (entryBits g (i + j), Chunk.new name (some mid) (entryBits g (i + j)) []) := by
  intro es
  induction es with
  | nil => intro i p h; cases h
  | cons e es ih =>
    intro i p h
    rw [seedList] at h
    rcases List.mem_cons.mp h with rfl | h'
    · exact ⟨0, e.1, e.2, by simp, by simp⟩
    · obtain ⟨j, name, mid, hj, hp⟩ := ih h'
      refine ⟨j + 1, name, mid, by simpa using hj, ?_⟩
      rw [hp]
      have : i + 1 + j = i + (j + 1) := by omega
      rw [this]

theorem seedList_mem_of_get {g : Graph} :
    ∀ {es : List (Option String × ModuleId)} {i j : Nat} {name : Option String} {mid : ModuleId},
      es.get? j = some (name, mid) →
      (entryBits g (i + j), Chunk.new name (some mid) (entryBits g (i + j)) []) ∈
        seedList g i es := by
  intro es
  induction es with
  | nil => intro i j name mid h; cases h
  | cons e es ih =>
    intro i j name mid h
    rw [seedList]
    cases j with
    | zero =>
      rw [List.get?_cons_zero] at h
      cases h
      exact List.mem_cons_self _ _
    | succ j =>
      rw [List.get?_cons_succ] at h
      have := ih (i := i + 1) h
      have harith : i + 1 + j = i + (j + 1) := by omega
      rw [harith] at this
      exact List.mem_cons_of_mem _ this

theorem seedList_map_fst_mem {g : Graph} :
    ∀ {es : List (Option String × ModuleId)} {i : Nat} {k : BitSet},
      k ∈ (seedList g i es).map Prod.fst → ∃ j, i ≤ j ∧ k = entryBits g j := by
  intro es i k h
  obtain ⟨p, hp, hk⟩ := List.mem_map.mp h
  obtain ⟨j, name, mid, _, hpeq⟩ := seedList_mem hp
  exact ⟨i + j, Nat.le_add_right _ _, by rw [← hk, hpeq]⟩

theorem seedList_nodup_keys (g : Graph) :
    ∀ (es : List (Option String × ModuleId)) (i : Nat),
      ((seedList g i es).map Prod.fst).Nodup := by
  intro es
  induction es with
  | nil => intro i; simp [seedList]
  | cons e es ih =>
    intro i
    rw [seedList, List.map_cons, List.nodup_cons]
    refine ⟨?_, ih (i+1)⟩
    intro hmem
    obtain ⟨j, hij, hk⟩ := seedList_map_fst_mem hmem
    have := entryBits_inj g hk
    omega

theorem seedLoop_eq_seedList (g : Graph) :
    ∀ (es : List (Option String × ModuleId)) (i : Nat) (cm : List (BitSet × Chunk)),
      (∀ p ∈ cm, ∀ j, i ≤ j → p.1 ≠ entryBits g j) →
      seedLoop g i es cm = cm ++ seedList g i es := by
  intro es
  induction es with
  | nil => intro i cm _; simp [seedLoop, seedList]
  | cons e es ih =>
    intro i cm hcm
    rw [seedLoop, seedList]
    rw [mapInsert_of_not_mem _ (fun p hp => hcm p hp i (Nat.le_refl i))]
    have hcm' : ∀ p ∈ cm ++ [(entryBits g i, Chunk.new e.1 (some e.2) (entryBits g i) [])],
        ∀ j, i + 1 ≤ j → p.1 ≠ entryBits g j := by
      intro p hp j hj
      rcases List.mem_append.mp hp with h' | h'
      · exact hcm p h' j (by omega)
      · rcases List.mem_singleton.mp h' with rfl
        intro hk
        have := entryBits_inj g hk
        omega
    rw [ih (i+1) _ hcm']
    simp

/-- The seeded map is exactly `seedList` applied to all declared entries. -/
theorem seeded_eq (g : Graph) : seedLoop g 0 g.entries [] = seedList g 0 g.entries := by
  rw [seedLoop_eq_seedList g g.entries 0 [] (by intro p hp; cases hp)]
  rfl

/-! ## Invariants of the clustering fold -/

/-- The entry module recorded for a key by the seeding phase (`none` for keys
the seeding phase never inserted). -/
def entryOfSeed (g : Graph) (k : BitSet) : Option ModuleId :=
  match mapLookup (seedLoop g 0 g.entries []) k with
  | some c => c.entry_module
  | none => none

/-- The invariant maintained by the clustering fold over the chunk map:
distinct keys, every chunk's signature is its key, every member's computed
signature is its chunk's key, exports and file names are still unset, the
entry module is exactly what seeding assigned to the key, and all seeded keys
are present. -/
def ClusterInv (g : Graph) (cm : List (BitSet × Chunk)) : Prop :=
  (cm.map Prod.fst).Nodup ∧
  (∀ p ∈ cm, p.2.bits = p.1) ∧
  (∀ p ∈ cm, ∀ m ∈ p.2.modules, bitsOfModule g m = p.1) ∧
  (∀ p ∈ cm, p.2.exports = none) ∧
  (∀ p ∈ cm, p.2.entry_module = entryOfSeed g p.1) ∧
  (∀ k ∈ (seedLoop g 0 g.entries []).map Prod.fst, k ∈ cm.map Prod.fst)

theorem clusterStep_inv (g : Graph) (module : Module) {cm : List (BitSet × Chunk)}
    (h : ClusterInv g cm) : ClusterInv g (clusterStep (bitsOfModule g) cm module) := by
  obtain ⟨hnd, hbits, hmem, hexp, hentry, hseed⟩ := h
  rw [clusterStep]
  cases hl : mapLookup cm (bitsOfModule g module.id) with
  | some c =>
    simp only
    refine ⟨?_, ?_, ?_, ?_, ?_, ?_⟩
    · rw [mapAdjust_map_fst]; exact hnd
    · intro p hp
      rcases mapAdjust_mem hp with h' | ⟨c', hc', rfl⟩
      · exact hbits p h'
      · simpa [chunkPush] using hbits _ hc'
    · intro p hp m hm
      rcases mapAdjust_mem hp with h' | ⟨c', hc', rfl⟩
      · exact hmem p h' m hm
      · simp only [chunkPush, List.mem_append, List.mem_singleton] at hm
        rcases hm with hm | rfl
        · exact hmem _ hc' m hm
        · rfl
    · intro p hp
      rcases mapAdjust_mem hp with h' | ⟨c', hc', rfl⟩
      · exact hexp p h'
      · simpa [chunkPush] using hexp _ hc'
    · intro p hp
      rcases mapAdjust_mem hp with h' | ⟨c', hc', rfl⟩
      · exact hentry p h'
      · simpa [chunkPush] using hentry _ hc'
    · intro k hk
      rw [mapAdjust_map_fst]
      exact hseed k hk
  | none =>
    simp only
    have hnotin : bitsOfModule g module.id ∉ cm.map Prod.fst := by
      intro hin
      obtain ⟨p, hp, hpk⟩ := List.mem_map.mp hin
      exact ((mapLookup_eq_none_iff cm _).mp hl p hp) hpk
    refine ⟨?_, ?_, ?_, ?_, ?_, ?_⟩
    · rw [List.map_append]
      simp only [List.map_cons, List.map_nil]
      exact List.Nodup.append hnd (List.nodup_singleton _)
        (by
          intro a ha hb
          rcases List.mem_singleton.mp hb with rfl
          exact hnotin ha)
    · intro p hp
      rcases List.mem_append.mp hp with h' | h'
      · exact hbits p h'
      · rcases List.mem_singleton.mp h' with rfl
        rfl
    · intro p hp m hm
      rcases List.mem_append.mp hp with h' | h'
      · exact hmem p h' m hm
      · rcases List.mem_singleton.mp h' with rfl
        simp only [Chunk.new, List.mem_singleton] at hm
        rw [hm]
    · intro p hp
      rcases List.mem_append.mp hp with h' | h'
      · exact hexp p h'
      · rcases List.mem_singleton.mp h' with rfl
        rfl
    · intro p hp
      rcases List.mem_append.mp hp with h' | h'
      · exact hentry p h'
      · rcases List.mem_singleton.mp h' with rfl
        simp only [Chunk.new]
        rw [entryOfSeed]
        cases hls : mapLookup (seedLoop g 0 g.entries []) (bitsOfModule g module.id) with
        | none => rfl
        | some sc =>
          exfalso
          have : (bitsOfModule g module.id) ∈ (seedLoop g 0 g.entries []).map Prod.fst :=
            List.mem_map.mpr ⟨_, mapLookup_some_mem hls, rfl⟩
          exact hnotin (hseed _ this)
    · intro k hk
      rw [List.map_append]
      exact List.mem_append_left _ (hseed k hk)

/-- The seeded map satisfies the invariant. -/
theorem seeded_inv (g : Graph) : ClusterInv g (seedLoop g 0 g.entries []) := by
  have hnd : ((seedLoop g 0 g.entries []).map Prod.fst).Nodup := by
    rw [seeded_eq]
    exact seedList_nodup_keys g g.entries 0
  refine ⟨hnd, ?_, ?_, ?_, ?_, fun k hk => hk⟩
  · intro p hp
    rw [seeded_eq] at hp
    obtain ⟨j, name, mid, _, rfl⟩ := seedList_mem hp
    rfl
  · intro p hp m hm
    rw [seeded_eq] at hp
    obtain ⟨j, name, mid, _, rfl⟩ := seedList_mem hp
    cases hm
  · intro p hp
    rw [seeded_eq] at hp
    obtain ⟨j, name, mid, _, rfl⟩ := seedList_mem hp
    rfl
  · intro p hp
    have hp' : (p.1, p.2) ∈ seedLoop g 0 g.entries [] := by simpa using hp
    rw [entryOfSeed, mapLookup_of_nodup_mem hnd hp']

theorem clusteredPairs_inv (g : Graph) : ClusterInv g (clusteredPairs g) := by
  rw [clusteredPairs]
  exact foldl_preserve (ClusterInv g) _ (fun cm module h => clusterStep_inv g module h)
    _ _ (seeded_inv g)

/-! ## Presence of processed modules -/

theorem clusterStep_grow (g : Graph) (module : Module) {cm : List (BitSet × Chunk)}
    {p : BitSet × Chunk} (hp : p ∈ cm) :
    ∃ p' ∈ clusterStep (bitsOfModule g) cm module, p.1 = p'.1 ∧ p.2.modules ⊆ p'.2.modules := by
  rw [clusterStep]
  cases hl : mapLookup cm (bitsOfModule g module.id) with
  | some c =>
    simp only
    exact mapAdjust_grow _ _ (fun c' => by simp [chunkPush]) hp
  | none =>
    simp only
    exact ⟨p, List.mem_append_left _ hp, rfl, fun x hx => hx⟩

theorem clusterStep_self (g : Graph) (module : Module) (cm : List (BitSet × Chunk)) :
    ∃ p ∈ clusterStep (bitsOfModule g) cm module, module.id ∈ p.2.modules := by
  rw [clusterStep]
  cases hl : mapLookup cm (bitsOfModule g module.id) with
  | some c =>
    simp only
    exact ⟨_, mapAdjust_mem_of_lookup (chunkPush module.id) hl, by simp [chunkPush]⟩
  | none =>
    simp only
    exact ⟨_, List.mem_append_right _ (List.mem_singleton_self _), by simp [Chunk.new]⟩

theorem clusterFold_presence (g : Graph) :
    ∀ (ms : List Module) (cm : List (BitSet × Chunk)) (module : Module), module ∈ ms →
      ∃ p ∈ ms.foldl (clusterStep (bitsOfModule g)) cm, module.id ∈ p.2.modules := by
  intro ms
  induction ms with
  | nil => intro cm module h; cases h
  | cons m ms ih =>
    intro cm module h
    rcases List.mem_cons.mp h with rfl | h'
    · simp only [List.foldl]
      obtain ⟨p, hp, hmem⟩ := clusterStep_self g module cm
      exact foldl_preserve (fun cm' => ∃ p ∈ cm', module.id ∈ p.2.modules)
        _
        (by
          intro cm' mod' ⟨q, hq, hqm⟩
          obtain ⟨q', hq', _, hsub⟩ := clusterStep_grow g mod' hq
          exact ⟨q', hq', hsub hqm⟩)
        ms _ ⟨p, hp, hmem⟩
    · exact ih _ module h'

/-! ## The stable sort by execution order -/

theorem insertSorted_mem (g : Graph) (x : ModuleId) :
    ∀ (l : List ModuleId) (a : ModuleId), a ∈ insertSorted g x l ↔ a = x ∨ a ∈ l := by
  intro l
  induction l with
  | nil => intro a; simp [insertSorted]
  | cons y ys ih =>
    intro a
    rw [insertSorted]
    split
    · simp [or_comm, or_assoc, or_left_comm]
    · simp only [List.mem_cons, ih a]
      tauto

theorem insertSorted_sorted (g : Graph) (x : ModuleId) :
    ∀ {l : List ModuleId},
      l.Pairwise (fun a b => execOrderOf g a ≤ execOrderOf g b) →
      (insertSorted g x l).Pairwise (fun a b => execOrderOf g a ≤ execOrderOf g b) := by
  intro l
  induction l with
  | nil => intro _; simp [insertSorted]
  | cons y ys ih =>
    intro h
    rw [List.pairwise_cons] at h
    rw [insertSorted]
    split
    · rename_i hxy
      rw [List.pairwise_cons]
      refine ⟨?_, List.pairwise_cons.mpr h⟩
      intro b hb
      rcases List.mem_cons.mp hb with rfl | hb'
      · omega
      · have := h.1 b hb'
        omega
    · rename_i hxy
      rw [List.pairwise_cons]
      refine ⟨?_, ih h.2⟩
      intro b hb
      rcases (insertSorted_mem g x ys b).mp hb with rfl | hb'
      · omega
      · exact h.1 b hb'

theorem sortModules_sorted (g : Graph) (l : List ModuleId) :
    (sortModules g l).Pairwise (fun a b => execOrderOf g a ≤ execOrderOf g b) := by
  rw [sortModules]
  exact foldl_preserve (fun acc => acc.Pairwise (fun a b => execOrderOf g a ≤ execOrderOf g b))
    _ (fun acc x h => insertSorted_sorted g x h) l [] (by simp)

theorem sortModules_mem (g : Graph) (l : List ModuleId) (a : ModuleId) :
    a ∈ sortModules g l ↔ a ∈ l := by
  rw [sortModules]
  have main : ∀ (l' : List ModuleId) (acc : List ModuleId),
      a ∈ l'.foldl (fun acc x => insertSorted g x acc) acc ↔ a ∈ acc ∨ a ∈ l' := by
    intro l'
    induction l' with
    | nil => intro acc; simp
    | cons x xs ih =>
      intro acc
      simp only [List.foldl, ih, insertSorted_mem]
      constructor
      · rintro ((rfl | h) | h)
        · exact Or.inr (List.mem_cons_self _ _)
        · exact Or.inl h
        · exact Or.inr (List.mem_cons_of_mem _ h)
      · rintro (h | h)
        · exact Or.inl (Or.inr h)
        · rcases List.mem_cons.mp h with rfl | h'
          · exact Or.inl (Or.inl rfl)
          · exact Or.inr h'
  simpa using main l []

/-! ## Chunk-level facts about `generate_chunks` -/

theorem generate_chunks_mem {g : Graph} {c : Chunk} :
    c ∈ (generate_chunks g).1 ↔
      ∃ p ∈ clusteredPairs g, c = { p.2 with modules := sortModules g p.2.modules } := by
  rw [generate_chunks]
  simp only [List.mem_map]
  constructor
  · rintro ⟨p, hp, rfl⟩
    exact ⟨p, hp, rfl⟩
  · rintro ⟨p, hp, rfl⟩
    exact ⟨p, hp, rfl⟩

theorem pair_eq_of_fst_eq :
    ∀ {cm : List (BitSet × Chunk)}, (cm.map Prod.fst).Nodup →
      ∀ {p q : BitSet × Chunk}, p ∈ cm → q ∈ cm → p.1 = q.1 → p = q := by
  intro cm
  induction cm with
  | nil => intro _ p q hp; cases hp
  | cons r rest ih =>
    intro hnd p q hp hq h
    rw [List.map_cons, List.nodup_cons] at hnd
    rcases List.mem_cons.mp hp with rfl | hp'
    · rcases List.mem_cons.mp hq with rfl | hq'
      · rfl
      · exact absurd (h ▸ List.mem_map.mpr ⟨q, hq', rfl⟩) hnd.1
    · rcases List.mem_cons.mp hq with rfl | hq'
      · exact absurd (h ▸ List.mem_map.mpr ⟨p, hp', rfl⟩) hnd.1
      · exact ih hnd.2 hp' hq' h

theorem entryBits_has_bit (g : Graph) (i j : Nat) :
    (entryBits g i).has_bit j = decide (i = j) := by
  rw [entryBits, BitSet.has_bit_set_bit, BitSet.has_bit_new]
  simp

/-! ## Claims C4, C5, C7 -/

/-- C4: after `generate_chunks`, two assigned modules are members of the same
chunk iff their reachability bitsets are equal bit for bit; and every module
surviving the runtime skip is assigned to some chunk (in particular, modules
with the all-zero signature are grouped into a chunk, not filtered out). -/
theorem claim_C4_membership_iff_equal_bits (g : Graph) :
    (∀ c1 c2, c1 ∈ (generate_chunks g).1 → c2 ∈ (generate_chunks g).1 →
      ∀ m1 m2, m1 ∈ c1.modules → m2 ∈ c2.modules →
        (c1 = c2 ↔ bitsOfModule g m1 = bitsOfModule g m2)) ∧
    (∀ module ∈ skipRuntimeModules 0 g.runtime g.modules,
      ∃ c ∈ (generate_chunks g).1, module.id ∈ c.modules) := by
  obtain ⟨hnd, hbits, hmem, _, _, _⟩ := clusteredPairs_inv g
  constructor
  · intro c1 c2 hc1 hc2 m1 m2 hm1 hm2
    obtain ⟨p1, hp1, rfl⟩ := generate_chunks_mem.mp hc1
    obtain ⟨p2, hp2, rfl⟩ := generate_chunks_mem.mp hc2
    simp only [sortModules_mem] at hm1 hm2
    have hb1 : bitsOfModule g m1 = p1.1 := hmem p1 hp1 m1 hm1
    have hb2 : bitsOfModule g m2 = p2.1 := hmem p2 hp2 m2 hm2
    constructor
    · intro hc
      have hbb := congrArg Chunk.bits hc
      have hbb' : p1.2.bits = p2.2.bits := hbb
      rw [hbits p1 hp1, hbits p2 hp2] at hbb'
      rw [hb1, hb2, hbb']
    · intro hb
      have hk : p1.1 = p2.1 := by rw [← hb1, ← hb2, hb]
      rw [pair_eq_of_fst_eq hnd hp1 hp2 hk]
  · intro module hmod
    obtain ⟨p, hp, hpm⟩ := clusterFold_presence g _ _ module hmod
    refine ⟨{ p.2 with modules := sortModules g p.2.modules },
      generate_chunks_mem.mpr ⟨p, hp, rfl⟩, ?_⟩
    simpa [sortModules_mem] using hpm

/-- A concrete graph where entry module 0 statically imports module 1, so the
two modules share the entry chunk. -/
def gW4 : Graph :=
  { modules := [.normal ⟨0, 0, [⟨.Static, 1⟩]⟩, .normal ⟨1, 1, []⟩],
    entries := [(none, 0)],
    runtime := 5,
    symbols := [] }

/-- The single chunk produced for `gW4`. -/
def cW4 : Chunk := ⟨none, some 0, ⟨1, 1⟩, [0, 1], none, none⟩

theorem claim_C4_witness : bitsOfModule gW4 0 = bitsOfModule gW4 1 :=
  ((claim_C4_membership_iff_equal_bits gW4).1 cW4 cW4 (by decide) (by decide)
    0 1 (by decide) (by decide)).mp rfl

/-- C5 (amended): distinct chunks always carry distinct signatures; for every
declared entry occurrence `(name, mid)` at position `i` there is a chunk whose
signature is the singleton bitset for `i` and whose `entry_module` is
`some mid`; and when the declared entry module ids are pairwise distinct, the
chunk with `entry_module = some e` is unique for every `e`.  (The claim as
stated, with "exactly one chunk whose entry_module is Some(e)", fails when the
same module id is declared as an entry twice — see
`claim_C5_counterexample`.) -/
theorem claim_C5_entry_chunks (g : Graph) :
    (∀ c1 c2, c1 ∈ (generate_chunks g).1 → c2 ∈ (generate_chunks g).1 →
      c1.bits = c2.bits → c1 = c2) ∧
    (∀ i name mid, g.entries.get? i = some (name, mid) →
      ∃ c ∈ (generate_chunks g).1, c.bits = entryBits g i ∧ c.entry_module = some mid ∧
        ∀ j, (c.bits.has_bit j = true ↔ j = i)) ∧
    ((g.entries.map Prod.snd).Nodup →
      ∀ c1 c2 e, c1 ∈ (generate_chunks g).1 → c2 ∈ (generate_chunks g).1 →
        c1.entry_module = some e → c2.entry_module = some e → c1 = c2) := by
  obtain ⟨hnd, hbits, _, _, hentry, hseed⟩ := clusteredPairs_inv g
  have hsednd : ((seedLoop g 0 g.entries []).map Prod.fst).Nodup := by
    rw [seeded_eq]
    exact seedList_nodup_keys g g.entries 0
  have chunk_bits : ∀ {p : BitSet × Chunk}, p ∈ clusteredPairs g →
      ({ p.2 with modules := sortModules g p.2.modules } : Chunk).bits = p.1 :=
    fun {p} hp => hbits p hp
  have uniq : ∀ c1 c2, c1 ∈ (generate_chunks g).1 → c2 ∈ (generate_chunks g).1 →
      c1.bits = c2.bits → c1 = c2 := by
    intro c1 c2 hc1 hc2 hb
    obtain ⟨p1, hp1, rfl⟩ := generate_chunks_mem.mp hc1
    obtain ⟨p2, hp2, rfl⟩ := generate_chunks_mem.mp hc2
    rw [chunk_bits hp1, chunk_bits hp2] at hb
    rw [pair_eq_of_fst_eq hnd hp1 hp2 hb]
  refine ⟨uniq, ?_, ?_⟩
  · intro i name mid hget
    have hmem0 : (entryBits g (0 + i), Chunk.new name (some mid) (entryBits g (0 + i)) []) ∈
        seedList g 0 g.entries := seedList_mem_of_get hget
    rw [Nat.zero_add] at hmem0
    rw [← seeded_eq] at hmem0
    have hkey : entryBits g i ∈ (clusteredPairs g).map Prod.fst :=
      hseed _ (List.mem_map.mpr ⟨_, hmem0, rfl⟩)
    obtain ⟨p, hp, hpk⟩ := List.mem_map.mp hkey
    refine ⟨{ p.2 with modules := sortModules g p.2.modules },
      generate_chunks_mem.mpr ⟨p, hp, rfl⟩, ?_, ?_, ?_⟩
    · rw [chunk_bits hp, hpk]
    · show p.2.entry_module = some mid
      rw [hentry p hp, hpk, entryOfSeed, mapLookup_of_nodup_mem hsednd hmem0]
      rfl
    · intro j
      rw [chunk_bits hp, hpk, entryBits_has_bit]
      simp [eq_comm]
  · intro hndentries c1 c2 e hc1 hc2 he1 he2
    obtain ⟨p1, hp1, rfl⟩ := generate_chunks_mem.mp hc1
    obtain ⟨p2, hp2, rfl⟩ := generate_chunks_mem.mp hc2
    have key_of_entry : ∀ {p : BitSet × Chunk}, p ∈ clusteredPairs g →
        ({ p.2 with modules := sortModules g p.2.modules } : Chunk).entry_module = some e →
        ∃ j name', g.entries.get? j = some (name', e) ∧ p.1 = entryBits g j := by
      intro p hp hpe
      have hpe' : p.2.entry_module = some e := hpe
      rw [hentry p hp, entryOfSeed] at hpe'
      cases hls : mapLookup (seedLoop g 0 g.entries []) p.1 with
      | none => rw [hls] at hpe'; cases hpe'
      | some sc =>
        rw [hls] at hpe'
        have hscmem : (p.1, sc) ∈ seedLoop g 0 g.entries [] := mapLookup_some_mem hls
        rw [seeded_eq] at hscmem
        obtain ⟨j, name', mid', hj, hpeq⟩ := seedList_mem hscmem
        rw [Nat.zero_add] at hpeq
        have h1 : p.1 = entryBits g j := congrArg Prod.fst hpeq
        have h2 : sc = Chunk.new name' (some mid') (entryBits g j) [] :=
          congrArg Prod.snd hpeq
        rw [h2] at hpe'
        have : some mid' = some e := hpe'
        cases this
        exact ⟨j, name', hj, h1⟩
    obtain ⟨j1, name1, hj1, hk1⟩ := key_of_entry hp1 he1
    obtain ⟨j2, name2, hj2, hk2⟩ := key_of_entry hp2 he2
    have hjj : j1 = j2 := by
      have hm1 : (g.entries.map Prod.snd).get? j1 = some e := by
        rw [List.get?_map, hj1]
        rfl
      have hm2 : (g.entries.map Prod.snd).get? j2 = some e := by
        rw [List.get?_map, hj2]
        rfl
      have hlt : j1 < (g.entries.map Prod.snd).length := by
        obtain ⟨hl, _⟩ := List.get?_eq_some.mp hm1
        exact hl
      exact List.get?_inj hlt hndentries (hm1.trans hm2.symm)
    have hpk : p1.1 = p2.1 := by rw [hk1, hk2, hjj]
    rw [pair_eq_of_fst_eq hnd hp1 hp2 hpk]

/-- The graph that declares the same module id as an entry twice. -/
def gdup : Graph :=
  { modules := [.normal ⟨0, 0, []⟩],
    entries := [(none, 0), (none, 0)],
    runtime := 1,
    symbols := [] }

/-- C5 counterexample: with module 0 declared as an entry twice,
`generate_chunks` produces two chunks whose `entry_module` is `Some(0)`, so
"exactly one chunk whose entry_module is Some(e)" fails as stated. -/
theorem claim_C5_counterexample :
    (generate_chunks gdup).1.countP (fun c => c.entry_module == some 0) = 2 := by decide

/-- Witness graph for C5: one entry, one module. -/
def gW5 : Graph :=
  { modules := [.normal ⟨0, 0, []⟩],
    entries := [(none, 0)],
    runtime := 1,
    symbols := [] }

/-- The single chunk produced for `gW5`. -/
def cW5 : Chunk := ⟨none, some 0, ⟨1, 1⟩, [0], none, none⟩

theorem claim_C5_witness : cW5.bits = entryBits gW5 0 ∧ cW5.entry_module = some 0 := by
  obtain ⟨c, hc, hb, he, _⟩ := (claim_C5_entry_chunks gW5).2.1 0 none 0 rfl
  have hceq : c = cW5 :=
    (claim_C5_entry_chunks gW5).1 c cW5 hc (by decide) (by rw [hb]; decide)
  rw [← hceq]
  exact ⟨hb, he⟩

/-- C7: within every chunk of `generate_chunks`, the member sequence is sorted
by execution order — if `a` precedes `b`, then `a`'s execution order is at
most `b`'s. -/
theorem claim_C7_members_sorted (g : Graph) (c : Chunk)
    (h : c ∈ (generate_chunks g).1) :
    c.modules.Pairwise (fun a b => execOrderOf g a ≤ execOrderOf g b) := by
  obtain ⟨p, _, rfl⟩ := generate_chunks_mem.mp h
  exact sortModules_sorted g p.2.modules

theorem claim_C7_witness :
    cW4.modules.Pairwise (fun a b => execOrderOf gW4 a ≤ execOrderOf gW4 b) :=
  claim_C7_members_sorted gW4 cW4 (by decide)

/-! ## Claims C6, C8, C10 -/

/-- C6: reachability marking never follows dynamic-import edges — whenever a
module's final signature carries bit `i`, the module is reachable from the
entry declared at position `i` through static-import records alone. -/
theorem claim_C6_static_reach_only (g : Graph) (m : ModuleId) (i : Nat)
    (h : (bitsOfModule g m).has_bit i = true) :
    ∃ name mid, g.entries.get? i = some (name, mid) ∧ StaticReach g mid m :=
  computeBits_sound g m i h

/-- Scenario D of the spec: `E1 = 0` statically imports `M1 = 1`, which
dynamically imports `M2 = 2`; `M2` is itself the second declared entry. -/
def gD : Graph :=
  { modules := [.normal ⟨0, 0, [⟨.Static, 1⟩]⟩,
                .normal ⟨1, 1, [⟨.DynamicImport, 2⟩]⟩,
                .normal ⟨2, 2, []⟩],
    entries := [(none, 0), (none, 2)],
    runtime := 5,
    symbols := [] }

theorem claim_C6_witness :
    StaticReach gD 0 1 ∧
    (bitsOfModule gD 1).has_bit 0 = true ∧
    (bitsOfModule gD 2).has_bit 0 = false ∧
    (bitsOfModule gD 2).has_bit 1 = true := by
  refine ⟨?_, by decide, by decide, by decide⟩
  obtain ⟨name, mid, hget, hreach⟩ := claim_C6_static_reach_only gD 1 0 (by decide)
  have hsome : some (name, mid) = some ((none : Option String), (0 : ModuleId)) :=
    hget.symm.trans rfl
  have hmid : mid = 0 := congrArg (fun o => (o.getD (none, 0)).2) hsome
  rw [hmid] at hreach
  exact hreach

/-- C8: the marking recursion reaches its fixpoint within fuel equal to the
number of modules plus one — on every graph, cyclic static imports included —
and when the target module's bit is already set it returns its input
unchanged. -/
theorem claim_C8_marking_terminates (g : Graph) (i : Nat) (m : ModuleId)
    (bits : List BitSet) (hcov : coversModules g bits) :
    (∀ f, g.modules.length < f →
      mark_rec g i f m bits = mark_modules_entry_bit g m i bits) ∧
    ((getBitsD bits m).has_bit i = true → mark_modules_entry_bit g m i bits = bits) := by
  constructor
  · intro f hf
    exact mark_rec_high g i m bits hcov hf
  · intro h
    rw [mark_modules_entry_bit, mark_rec, if_pos h]

/-- The cyclic graph of spec scenario C: modules 0 and 1 statically import
each other. -/
def gCyc : Graph :=
  { modules := [.normal ⟨0, 0, [⟨.Static, 1⟩]⟩, .normal ⟨1, 1, [⟨.Static, 0⟩]⟩],
    entries := [(none, 0)],
    runtime := 5,
    symbols := [] }

theorem claim_C8_witness :
    mark_rec gCyc 0 7 0 (List.replicate 2 (BitSet.new 1)) =
      mark_modules_entry_bit gCyc 0 0 (List.replicate 2 (BitSet.new 1)) ∧
    mark_modules_entry_bit gCyc 0 0 [⟨1, 1⟩, ⟨1, 0⟩] = [⟨1, 1⟩, ⟨1, 0⟩] :=
  ⟨(claim_C8_marking_terminates gCyc 0 0 _ (by decide)).1 7 (by decide),
   (claim_C8_marking_terminates gCyc 0 0 _ (by decide)).2 (by decide)⟩

/-- C10: `mark_modules_entry_bit(module_id, index, bits)` only ever sets bits
(never clears one), and for every module the only bit it may change is the bit
at position `index`: every other bit is returned exactly as it was. -/
theorem claim_C10_only_sets_index_bit (g : Graph) (module_id : ModuleId) (index : Nat)
    (bits : List BitSet) (m' j : Nat) :
    ((getBitsD bits m').has_bit j = true →
      (getBitsD (mark_modules_entry_bit g module_id index bits) m').has_bit j = true) ∧
    (j ≠ index →
      (getBitsD (mark_modules_entry_bit g module_id index bits) m').has_bit j =
        (getBitsD bits m').has_bit j) := by
  constructor
  · intro h
    exact mark_rec_mono g index _ module_id bits m' j h
  · intro hj
    exact mark_rec_frame g index _ module_id bits m' j hj

theorem claim_C10_witness :
    ((getBitsD (mark_modules_entry_bit gD 0 0 [⟨2, 2⟩]) 0).has_bit 1 = true) ∧
    ((getBitsD (mark_modules_entry_bit gD 0 0 [⟨2, 2⟩]) 0).has_bit 1 =
      (getBitsD [(⟨2, 2⟩ : BitSet)] 0).has_bit 1) :=
  ⟨(claim_C10_only_sets_index_bit gD 0 0 [⟨2, 2⟩] 0 1).1 (by decide),
   (claim_C10_only_sets_index_bit gD 0 0 [⟨2, 2⟩] 0 1).2 (by decide)⟩

/-! ## Claim C1: the runtime-module skip -/

/-- Runtime module at position 1: not at the head of the module list. -/
def gR1 : Graph :=
  { modules := [.normal ⟨0, 0, []⟩, .normal ⟨1, 1, []⟩],
    entries := [(none, 0)],
    runtime := 1,
    symbols := [] }

/-- Runtime module at position 0: at the head of the module list. -/
def gR0 : Graph :=
  { modules := [.normal ⟨0, 0, []⟩, .normal ⟨1, 1, []⟩],
    entries := [(none, 1)],
    runtime := 0,
    symbols := [] }

/-- C1 evaluation at the failing input: because the source uses `skip_while`
(which stops skipping at the first non-matching element) rather than a filter,
the runtime module is excluded from clustering only when it is the first
module; `gR1`'s runtime module (id 1) lands in a chunk's member list, while
`gR0`'s runtime module (id 0, at the head) is excluded. -/
theorem claim_C1_runtime_in_chunk :
    (generate_chunks gR1).1.countP (fun c => c.modules.contains gR1.runtime) = 1 ∧
    (generate_chunks gR0).1.countP (fun c => c.modules.contains gR0.runtime) = 0 := by
  decide

/-! ## Claim C3: `generate` panics on a render failure -/

/-- External operations whose render step always fails. -/
def opsBoom : ExternalOps :=
  { renderFileName := fun _ => "out.js",
    deConflict := fun _ s => s,
    initializeExports := fun m _ _ => (m, []),
    render := fun _ _ _ _ => .error "render failed" }

/-- C3 evaluation at the failing input: when a chunk's render step fails,
`generate` hits the `.unwrap()` on the render result and aborts the process
instead of returning a typed error. -/
theorem claim_C3_render_panics : generate opsBoom gW5 = GenResult.panicked := by rfl

/-! ## Claim C9: export wiring exactly for entry chunks -/

theorem chunksAfterNaming_exports_none (ops : ExternalOps) (g : Graph) :
    ∀ c ∈ chunksAfterNaming ops g, c.exports = none := by
  intro c hc
  rw [chunksAfterNaming] at hc
  obtain ⟨c0, hc0, rfl⟩ := List.mem_map.mp hc
  obtain ⟨p, hp, rfl⟩ := generate_chunks_mem.mp hc0
  obtain ⟨_, _, _, hexp, _, _⟩ := clusteredPairs_inv g
  exact hexp p hp

theorem wireLoop_exports (ops : ExternalOps) (syms : Symbols) :
    ∀ (cs : List Chunk) (mods : List Module), (∀ c ∈ cs, c.exports = none) →
      ∀ c' ∈ (wireLoop ops syms mods cs).2,
        c'.exports.isSome = c'.entry_module.isSome := by
  intro cs
  induction cs with
  | nil => intro mods _ c' hc'; cases hc'
  | cons c cs ih =>
    intro mods hnone c' hc'
    rw [wireLoop] at hc'
    by_cases hs : c.entry_module.isSome
    · rw [if_pos hs] at hc'
      rcases List.mem_cons.mp hc' with rfl | h'
      · simp [hs]
      · exact ih _ (fun a ha => hnone a (List.mem_cons_of_mem _ ha)) c' h'
    · rw [if_neg hs] at hc'
      rcases List.mem_cons.mp hc' with rfl | h'
      · rw [hnone c' (List.mem_cons_self _ _)]
        simp only [Option.isSome_none]
        cases he : c'.entry_module.isSome
        · rfl
        · exact absurd he hs
      · exact ih _ (fun a ha => hnone a (List.mem_cons_of_mem _ ha)) c' h'

/-- C9: in `generate`, a chunk's export table is populated if and only if the
chunk owns a designated entry module; chunks with `entry_module = None` come
out of export wiring with their export table still unset. -/
theorem claim_C9_exports_iff_entry (ops : ExternalOps) (g : Graph) (c : Chunk)
    (h : c ∈ chunksAfterExportWiring ops g) :
    c.exports.isSome = c.entry_module.isSome := by
  rw [chunksAfterExportWiring] at h
  exact wireLoop_exports ops _ _ _ (chunksAfterNaming_exports_none ops g) c h

/-- External operations with trivial behaviour, for the C9 witness. -/
def opsOk : ExternalOps :=
  { renderFileName := fun _ => "out.js",
    deConflict := fun _ s => s,
    initializeExports := fun m _ _ => (m, []),
    render := fun _ _ _ _ => .ok "content" }

/-- The chunk of `gW5` after export wiring under `opsOk`. -/
def cW9 : Chunk := ⟨none, some 0, ⟨1, 1⟩, [0], some "out.js", some []⟩

theorem claim_C9_witness : cW9.exports.isSome = cW9.entry_module.isSome :=
  claim_C9_exports_iff_entry opsOk gW5 cW9 (by decide)

end Rolldown
